import Mathlib

/-!
# SmartSocket broker: verification of the documented runtime behaviour

A shallow embedding of the SmartSocket runtime as it appears in the
repository sources: the fixed message-routing code of `smartsocket/index.js`
(Fix #1), the fixed `Namespace.to(room)` broadcast of
`smartsocket/namespace.js`, the `RateLimiter`, `MessageQueue` and
`reconnect` code of the technical reference, and the connect-URL
construction of `smartsocket-client/SmartSocketClient.js` (Fix #3).
Components whose implementation is not part of the repository (the binary
codec and the acknowledgment correlator) are modelled from the
specification text, as marked on their definitions.
-/

namespace SmartSocket

/-! ## Event dispatch (smartsocket/index.js message handler, Fix #1)

The fixed message handler first consults the handlers of the namespace the
socket is bound to, then the per-socket handlers, then the server-level
handlers, and otherwise does nothing.  Handler tables are modelled as the
set (list) of event names that have a registered handler; the namespace
manager is an association list from namespace path to its handler table. -/

/-- Which handler the message router invokes for an inbound event frame. -/
inductive Dispatch where
  | nsHandler (path : String)
  | socketHandler
  | serverHandler
  | dropped
deriving DecidableEq, Repr

/-- The fixed message handler of `smartsocket/index.js` (Fix #1): check the
handlers of the namespace the socket is bound to, then the per-socket
handlers (`socket.handlers[event]`), then the server handlers
(`this.handlers[event]`), and otherwise fall through without any action. -/
def routeMessage (namespaces : List (String × List String))
    (socketNamespace : Option String)
    (socketHandlers serverHandlers : List String) (event : String) : Dispatch :=
  let fallback :=
    if event ∈ socketHandlers then Dispatch.socketHandler
    else if event ∈ serverHandlers then Dispatch.serverHandler
    else Dispatch.dropped
  match socketNamespace with
  | some path =>
    match namespaces.lookup path with
    | some handlers =>
      if event ∈ handlers then Dispatch.nsHandler path else fallback
    | none => fallback
  | none => fallback

/-- The lookup order exactly as the specification words it: namespace
handler, else per-socket handler, else root/server handler, else drop. -/
def specLookupOrder (nsHandlers socketHandlers serverHandlers : List String)
    (path event : String) : Dispatch :=
  if event ∈ nsHandlers then Dispatch.nsHandler path
  else if event ∈ socketHandlers then Dispatch.socketHandler
  else if event ∈ serverHandlers then Dispatch.serverHandler
  else Dispatch.dropped

/-- C1: for a frame arriving on a socket bound to namespace `N` (with `N`
registered), the fixed dispatcher resolves the handler in the order
namespace handler, per-socket handler, server-level handler, silent drop,
and invokes exactly the first one found. -/
theorem routeMessage_follows_lookup_order
    (namespaces : List (String × List String)) (socketNamespace : Option String)
    (socketHandlers serverHandlers : List String) (event path : String)
    (nsHandlers : List String)
    (hbound : socketNamespace = some path)
    (hreg : namespaces.lookup path = some nsHandlers) :
    routeMessage namespaces socketNamespace socketHandlers serverHandlers event =
      specLookupOrder nsHandlers socketHandlers serverHandlers path event := by
  subst hbound
  simp only [routeMessage, specLookupOrder, hreg]

/-- Concrete run of the routing order: an event registered both on the
socket and the server but not on the namespace goes to the socket handler. -/
theorem routeMessage_follows_lookup_order_witness :
    routeMessage [("/quiz", ["host-joined"])] (some "/quiz")
        ["chat"] ["chat"] "chat" =
      specLookupOrder ["host-joined"] ["chat"] ["chat"] "/quiz" "chat" :=
  routeMessage_follows_lookup_order [("/quiz", ["host-joined"])] (some "/quiz")
    ["chat"] ["chat"] "chat" "/quiz" ["host-joined"] rfl rfl

/-! ## Room broadcast (smartsocket/namespace.js, fixed `to(room)`)

A socket is modelled by its id together with a flag saying whether its
`emit` throws (the behaviour the per-socket `try/catch` guards against).
A namespace's room index is an association list room-id to member list,
in insertion order, as the JS `Map` from room to `Set` iterates. -/

/-- A connected socket, as the broadcast path sees it: an id and whether
`socket.emit` throws for it. -/
structure Socket where
  id : Nat
  failing : Bool
deriving DecidableEq, Repr

/-- Logging levels used by the fixed broadcast code. -/
inductive LogLevel where
  | warn
  | error
  | info
deriving DecidableEq, Repr

/-- A console log line: a level and a message. -/
structure LogEntry where
  level : LogLevel
  message : String
deriving DecidableEq, Repr

/-- Result of one `to(room).emit(event, data)` call: the ids that received
the event, the ids whose `emit` threw, and the log lines produced. -/
structure EmitOutcome where
  delivered : List Nat
  errored : List Nat
  logs : List LogEntry
deriving DecidableEq, Repr

/-- The per-socket loop of the fixed `to(room).emit`: iterate over the room
members in order; each `socket.emit` runs inside its own `try/catch`, a
throw being logged at error level and counted, never rethrown. -/
def emitLoop (room : String) : List Socket → EmitOutcome
  | [] => ⟨[], [], []⟩
  | s :: rest =>
    let r := emitLoop room rest
    if s.failing then
      ⟨r.delivered, s.id :: r.errored,
        ⟨LogLevel.error, "[Namespace] Error emitting to socket in room [" ++ room ++ "]"⟩
          :: r.logs⟩
    else
      ⟨s.id :: r.delivered, r.errored, r.logs⟩

/-- The warning logged by the fixed `to(room)` when the room is absent or
empty. -/
def roomWarn (name room : String) : LogEntry :=
  ⟨LogLevel.warn,
    "[Namespace] Room [" ++ room ++ "] not found or empty in namespace [" ++ name ++ "]"⟩

/-- The fixed `Namespace.to(room).emit(event, data)`: if the room has no
entry or an empty member set, warn and return a no-op emitter; otherwise
emit to every member under a per-socket `try/catch`, then log the
broadcast summary when at least one send succeeded. -/
def namespaceToEmit (rooms : List (String × List Socket)) (name room : String) :
    EmitOutcome :=
  match rooms.lookup room with
  | none => ⟨[], [], [roomWarn name room]⟩
  | some socks =>
    if socks.length = 0 then ⟨[], [], [roomWarn name room]⟩
    else
      let r := emitLoop room socks
      if 0 < r.delivered.length then
        ⟨r.delivered, r.errored,
          r.logs ++ [⟨LogLevel.info, "[BROADCAST] room [" ++ room ++ "]"⟩]⟩
      else r

/-- Modelled from the spec: the `socket.to(roomId).emit(event, data)`
broadcast variant (its implementation is not among the repository sources;
per the routing table of the spec it targets every socket in the room
except the sender).  Returns the ids the event is sent to. -/
def socketToEmit (rooms : List (String × List Socket)) (senderId : Nat)
    (room : String) : List Nat :=
  match rooms.lookup room with
  | none => []
  | some socks => (socks.filter (fun s => s.id != senderId)).map Socket.id

theorem emitLoop_delivered (room : String) (socks : List Socket) :
    (emitLoop room socks).delivered =
      (socks.filter (fun s => !s.failing)).map Socket.id := by
  induction socks with
  | nil => rfl
  | cons s rest ih =>
    by_cases h : s.failing <;> simp [emitLoop, h, ih]

theorem emitLoop_errored (room : String) (socks : List Socket) :
    (emitLoop room socks).errored =
      (socks.filter (fun s => s.failing)).map Socket.id := by
  induction socks with
  | nil => rfl
  | cons s rest ih =>
    by_cases h : s.failing <;> simp [emitLoop, h, ih]

theorem emitLoop_logs_levels (room : String) (socks : List Socket) :
    ∀ l ∈ (emitLoop room socks).logs, l.level = LogLevel.error := by
  induction socks with
  | nil => intro l hl; simp [emitLoop] at hl
  | cons s rest ih =>
    intro l hl
    by_cases h : s.failing
    · simp [emitLoop, h] at hl
      rcases hl with hl | hl
      · simp [hl]
      · exact ih l hl
    · simp [emitLoop, h] at hl
      exact ih l hl

/-- C3: broadcasting to a room that has no entry in the room index, or
whose member set is empty, sends nothing to any socket, surfaces no error,
and logs exactly one warning. -/
theorem to_missing_or_empty_room_is_noop
    (rooms : List (String × List Socket)) (name room : String)
    (h : rooms.lookup room = none ∨ rooms.lookup room = some []) :
    (namespaceToEmit rooms name room).delivered = [] ∧
    (namespaceToEmit rooms name room).errored = [] ∧
    (namespaceToEmit rooms name room).logs = [roomWarn name room] := by
  rcases h with h | h <;> simp [namespaceToEmit, h]

/-- Concrete run: broadcasting to an unknown room is a warned no-op. -/
theorem to_missing_or_empty_room_is_noop_witness :
    (namespaceToEmit [("R1", [⟨1, false⟩])] "/quiz" "R2").delivered = [] ∧
    (namespaceToEmit [("R1", [⟨1, false⟩])] "/quiz" "R2").errored = [] ∧
    (namespaceToEmit [("R1", [⟨1, false⟩])] "/quiz" "R2").logs =
      [roomWarn "/quiz" "R2"] :=
  to_missing_or_empty_room_is_noop [("R1", [⟨1, false⟩])] "/quiz" "R2"
    (Or.inl (by decide))

/-- C9: `namespace.to(room).emit` delivers to every member of the room whose
`emit` does not throw, the sender included; only the `socket.to(room).emit`
variant excludes the sender from the targets. -/
theorem namespace_to_includes_sender
    (rooms : List (String × List Socket)) (name room : String)
    (s : Socket) (members : List Socket)
    (hroom : rooms.lookup room = some members)
    (hmem : s ∈ members) (hok : s.failing = false) :
    s.id ∈ (namespaceToEmit rooms name room).delivered ∧
    s.id ∉ socketToEmit rooms s.id room := by
  have hne : members.length ≠ 0 := by
    intro h0
    rw [List.length_eq_zero] at h0
    simp [h0] at hmem
  constructor
  · have hdel : s.id ∈ (emitLoop room members).delivered := by
      rw [emitLoop_delivered]
      exact List.mem_map_of_mem Socket.id (List.mem_filter.2 ⟨hmem, by simp [hok]⟩)
    simp only [namespaceToEmit, hroom, hne, if_false]
    by_cases hpos : 0 < (emitLoop room members).delivered.length <;> simp [hpos, hdel]
  · simp only [socketToEmit, hroom]
    intro hin
    rcases List.mem_map.1 hin with ⟨t, ht, hid⟩
    rcases List.mem_filter.1 ht with ⟨-, hne'⟩
    simp [hid] at hne'

/-- Concrete run: the sender (id 1) is in room `R1`; the namespace-level
broadcast reaches it while the socket-level variant skips it. -/
theorem namespace_to_includes_sender_witness :
    1 ∈ (namespaceToEmit [("R1", [⟨1, false⟩, ⟨2, false⟩])] "/quiz" "R1").delivered ∧
    1 ∉ socketToEmit [("R1", [⟨1, false⟩, ⟨2, false⟩])] 1 "R1" :=
  namespace_to_includes_sender [("R1", [⟨1, false⟩, ⟨2, false⟩])] "/quiz" "R1"
    ⟨1, false⟩ [⟨1, false⟩, ⟨2, false⟩] rfl (by decide) rfl

/-- C10: in the fixed `Namespace.to(room).emit`, a member whose `emit`
throws is logged at error level and counted, while every member whose
`emit` does not throw still receives the event; the call itself never
rethrows (it returns an outcome for every input). -/
theorem room_broadcast_isolates_socket_errors
    (rooms : List (String × List Socket)) (name room : String)
    (members : List Socket)
    (hroom : rooms.lookup room = some members) (hne : members ≠ []) :
    (namespaceToEmit rooms name room).delivered =
      (members.filter (fun s => !s.failing)).map Socket.id ∧
    (namespaceToEmit rooms name room).errored =
      (members.filter (fun s => s.failing)).map Socket.id ∧
    (∀ s ∈ members, s.failing = false →
      s.id ∈ (namespaceToEmit rooms name room).delivered) ∧
    (∀ l ∈ (namespaceToEmit rooms name room).logs, l.level ≠ LogLevel.warn) := by
  have hlen : members.length ≠ 0 := by
    intro h0
    exact hne (List.length_eq_zero.1 h0)
  have hout : (namespaceToEmit rooms name room).delivered =
      (emitLoop room members).delivered ∧
      (namespaceToEmit rooms name room).errored =
        (emitLoop room members).errored := by
    simp only [namespaceToEmit, hroom, hlen, if_false]
    by_cases hpos : 0 < (emitLoop room members).delivered.length <;> simp [hpos]
  refine ⟨hout.1.trans (emitLoop_delivered room members),
    hout.2.trans (emitLoop_errored room members), ?_, ?_⟩
  · intro s hs hsf
    rw [hout.1.trans (emitLoop_delivered room members)]
    exact List.mem_map_of_mem Socket.id (List.mem_filter.2 ⟨hs, by simp [hsf]⟩)
  · intro l hl
    simp only [namespaceToEmit, hroom, hlen, if_false] at hl
    by_cases hpos : 0 < (emitLoop room members).delivered.length
    · simp only [hpos, if_true, List.mem_append] at hl
      rcases hl with hl | hl
      · rw [emitLoop_logs_levels room members l hl]
        decide
      · simp at hl
        subst hl
        simp
    · simp only [hpos, if_false] at hl
      rw [emitLoop_logs_levels room members l hl]
      decide

/-- Concrete run: with a throwing socket between two healthy ones, both
healthy members still receive the event and the failure is only counted. -/
theorem room_broadcast_isolates_socket_errors_witness :
    (namespaceToEmit [("R1", [⟨1, false⟩, ⟨2, true⟩, ⟨3, false⟩])] "/quiz" "R1").delivered =
      [1, 3] ∧
    (namespaceToEmit [("R1", [⟨1, false⟩, ⟨2, true⟩, ⟨3, false⟩])] "/quiz" "R1").errored =
      [2] := by
  have h := room_broadcast_isolates_socket_errors
    [("R1", [⟨1, false⟩, ⟨2, true⟩, ⟨3, false⟩])] "/quiz" "R1"
    [⟨1, false⟩, ⟨2, true⟩, ⟨3, false⟩] rfl (by decide)
  exact ⟨h.1.trans (by decide), h.2.1.trans (by decide)⟩

/-! ## Rate limiter (technical reference, `RateLimiter`)

`isAllowed` first reassigns the timestamp ring to the entries with
`now - ts < window`, denies when the remaining count has reached
`maxRequests`, and otherwise appends `now` and admits. -/

/-- Rate limiter configuration: window length in ms and the maximum number
of requests admitted per window. -/
structure RateLimitCfg where
  window : Nat
  maxRequests : Nat
deriving DecidableEq, Repr

/-- `RateLimiter.isAllowed`, with the mutable `this.requests` ring passed
and returned explicitly: filter the ring to the timestamps with
`now - ts < window`, deny if the remaining count reached `maxRequests`,
else append `now` and admit. -/
def isAllowed (cfg : RateLimitCfg) (requests : List Nat) (now : Nat) :
    List Nat × Bool :=
  let reqs := requests.filter (fun ts => now - ts < cfg.window)
  if cfg.maxRequests ≤ reqs.length then (reqs, false)
  else (reqs ++ [now], true)

/-- Run the rate limiter over a sequence of request times, returning the
times that were admitted, in order. -/
def admittedRun (cfg : RateLimitCfg) (requests : List Nat) :
    List Nat → List Nat
  | [] => []
  | t :: ts =>
    let r := isAllowed cfg requests t
    (if r.2 then [t] else []) ++ admittedRun cfg r.1 ts

/-- The admission count exactly as the claim words it: drop the timestamps
strictly older than `now - window`, then admit iff the remaining count is
strictly below `maxRequests`. -/
def claimAdmit (cfg : RateLimitCfg) (requests : List Nat) (now : Nat) : Bool :=
  (requests.filter (fun ts => ! decide (ts < now - cfg.window))).length
    < cfg.maxRequests

/-- C5 counterexample: with `window = 10`, `max = 1` and ring `[0]`, the
code at `now = 10` drops the boundary timestamp `0` (its age equals the
window) and admits, while the claim's rule — drop only timestamps strictly
older than `now - window` — keeps it and denies; consequently the times
`0` and `10` are both admitted although they lie in the closed interval
`[0, 10]` of length `window`. -/
theorem rate_limiter_boundary_counterexample :
    (isAllowed ⟨10, 1⟩ [0] 10).2 = true ∧
    claimAdmit ⟨10, 1⟩ [0] 10 = false ∧
    admittedRun ⟨10, 1⟩ [] [0, 10] = [0, 10] := by decide

theorem admittedRun_subset (cfg : RateLimitCfg) (requests times : List Nat) :
    ∀ x ∈ admittedRun cfg requests times, x ∈ times := by
  induction times generalizing requests with
  | nil => intro x hx; simp [admittedRun] at hx
  | cons t ts ih =>
    intro x hx
    simp only [admittedRun, List.mem_append] at hx
    rcases hx with hx | hx
    · cases h : (isAllowed cfg requests t).2 with
      | false => simp [h] at hx
      | true =>
        simp only [h, if_true] at hx
        simp only [List.mem_singleton] at hx
        simp [hx]
    · exact List.mem_cons_of_mem t (ih _ x hx)

theorem filter_length_mono {α : Type} (p q : α → Bool) (l : List α)
    (h : ∀ x ∈ l, p x = true → q x = true) :
    (l.filter p).length ≤ (l.filter q).length := by
  induction l with
  | nil => simp
  | cons a l ih =>
    have ih' := ih (fun x hx => h x (List.mem_cons_of_mem a hx))
    by_cases hp : p a = true
    · rw [List.filter_cons_of_pos hp, List.filter_cons_of_pos (h a (List.mem_cons_self a l) hp)]
      simpa using ih'
    · rw [List.filter_cons_of_neg (by simpa using hp)]
      calc (l.filter p).length ≤ (l.filter q).length := ih'
        _ ≤ ((a :: l).filter q).length := by
            by_cases hq : q a = true
            · rw [List.filter_cons_of_pos hq]; simp
            · rw [List.filter_cons_of_neg (by simpa using hq)]

/-- At the moment a request is admitted, fewer than `maxRequests` of the
requests the limiter has seen so far (ring contents plus earlier
admissions) are within `window` of it. -/
theorem admittedRun_recent_bound (cfg : RateLimitCfg) (times : List Nat)
    (hsort : times.Sorted (· ≤ ·)) :
    ∀ requests x pre post,
      admittedRun cfg requests times = pre ++ x :: post →
      ((requests ++ pre).filter (fun s => x - s < cfg.window)).length
        < cfg.maxRequests := by
  induction times with
  | nil =>
    intro requests x pre post h
    simp [admittedRun] at h
  | cons t ts ih =>
    intro requests x pre post h
    have hsort' : ts.Sorted (· ≤ ·) := hsort.of_cons
    have hle : ∀ y ∈ ts, t ≤ y := fun y hy => (List.sorted_cons.1 hsort).1 y hy
    simp only [admittedRun] at h
    have heqfil : ∀ y, t ≤ y →
        requests.filter (fun s => y - s < cfg.window) =
          (requests.filter (fun ts' => t - ts' < cfg.window)).filter
            (fun s => y - s < cfg.window) := by
      intro y hty
      rw [List.filter_filter]
      congr 1
      funext s
      by_cases hs : y - s < cfg.window
      · have hts : t - s < cfg.window := lt_of_le_of_lt
          (Nat.sub_le_sub_right hty s) hs
        simp [hs, hts]
      · simp [hs]
    by_cases hadm : cfg.maxRequests ≤
        (requests.filter (fun ts' => t - ts' < cfg.window)).length
    · -- denied: the ring is reassigned to the filtered list, nothing admitted
      have hfalse : (isAllowed cfg requests t).2 = false := by
        simp [isAllowed, hadm]
      have h1 : (isAllowed cfg requests t).1 =
          requests.filter (fun ts' => t - ts' < cfg.window) := by
        simp [isAllowed, hadm]
      rw [hfalse] at h
      simp only [Bool.false_eq_true, if_false, List.nil_append] at h
      rw [h1] at h
      have hx : x ∈ ts := admittedRun_subset cfg _ ts x (by rw [h]; simp)
      have htx : t ≤ x := hle x hx
      have key := ih hsort' _ x pre post h
      rw [List.filter_append] at key ⊢
      rw [heqfil x htx]
      exact key
    · -- admitted: t is appended to the ring and reported
      have htrue : (isAllowed cfg requests t).2 = true := by
        simp [isAllowed, hadm]
      have h1 : (isAllowed cfg requests t).1 =
          requests.filter (fun ts' => t - ts' < cfg.window) ++ [t] := by
        simp [isAllowed, hadm]
      rw [htrue] at h
      simp only [if_true, List.singleton_append] at h
      rw [h1] at h
      cases pre with
      | nil =>
        simp only [List.nil_append] at h
        injection h with hhead htail
        subst hhead
        rw [List.append_nil]
        exact Nat.lt_of_not_le hadm
      | cons p pre' =>
        rw [List.cons_append] at h
        injection h with hhead htail
        subst hhead
        have hx : x ∈ ts :=
          admittedRun_subset cfg _ ts x (by rw [htail]; simp)
        have htx : t ≤ x := hle x hx
        have key := ih hsort' _ x pre' post htail
        rw [List.filter_append, List.filter_append] at key
        rw [show requests ++ t :: pre' = (requests ++ [t]) ++ pre' by simp,
          List.filter_append, List.filter_append, heqfil x htx]
        exact key

/-- C5 (amended): the limiter admits iff, after dropping every timestamp
whose age reached the window (`now - ts ≥ window`), the remaining count is
strictly below `maxRequests`; and over any nondecreasing sequence of
request times, at most `maxRequests` requests are admitted within any
half-open interval `(t, t + window]`. -/
theorem rate_limiter_sliding_window (cfg : RateLimitCfg) (times : List Nat)
    (hsort : times.Sorted (· ≤ ·)) :
    (∀ requests now, (isAllowed cfg requests now).2 =
      decide ((requests.filter (fun ts => now - ts < cfg.window)).length
        < cfg.maxRequests)) ∧
    (∀ t, ((admittedRun cfg [] times).filter
        (fun s => decide (t < s) && decide (s ≤ t + cfg.window))).length
      ≤ cfg.maxRequests) := by
  constructor
  · intro requests now
    by_cases h : cfg.maxRequests ≤
        (requests.filter (fun ts => now - ts < cfg.window)).length
    · simp [isAllowed, h, Nat.not_lt.2 h]
    · simp [isAllowed, h, Nat.lt_of_not_le h]
  · intro t
    have key := admittedRun_recent_bound cfg times hsort []
    have main : ∀ A : List Nat,
        (∀ x pre post, A = pre ++ x :: post →
          (pre.filter (fun s => x - s < cfg.window)).length < cfg.maxRequests) →
        (A.filter (fun s => decide (t < s) && decide (s ≤ t + cfg.window))).length
          ≤ cfg.maxRequests := by
      intro A
      induction A using List.reverseRecOn with
      | nil => intro _; simp
      | append_singleton B a ihB =>
        intro hA
        have hB : ∀ x pre post, B = pre ++ x :: post →
            (pre.filter (fun s => x - s < cfg.window)).length < cfg.maxRequests := by
          intro x pre post hsplit
          exact hA x pre (post ++ [a]) (by rw [hsplit]; simp)
        by_cases hmem : (t < a ∧ a ≤ t + cfg.window)
        · have hfil : ((B ++ [a]).filter
              (fun s => decide (t < s) && decide (s ≤ t + cfg.window))).length =
              (B.filter (fun s => decide (t < s) && decide (s ≤ t + cfg.window))).length
                + 1 := by
            rw [List.filter_append]
            simp [hmem.1, hmem.2]
          have hlast := hA a B [] rfl
          have hmono : (B.filter
              (fun s => decide (t < s) && decide (s ≤ t + cfg.window))).length ≤
              (B.filter (fun s => a - s < cfg.window)).length := by
            apply filter_length_mono
            intro s _ hs
            simp only [Bool.and_eq_true, decide_eq_true_eq] at hs
            have h1 : t + 1 ≤ s := hs.1
            have h2 : a ≤ t + cfg.window := hmem.2
            simp only [decide_eq_true_eq]
            omega
          rw [hfil]
          omega
        · have hfil : ((B ++ [a]).filter
              (fun s => decide (t < s) && decide (s ≤ t + cfg.window))).length =
              (B.filter (fun s => decide (t < s) && decide (s ≤ t + cfg.window))).length := by
            rw [List.filter_append]
            have : (decide (t < a) && decide (a ≤ t + cfg.window)) = false := by
              rcases Decidable.not_and_iff_or_not.1 hmem with h | h <;> simp [h]
            simp [this]
          rw [hfil]
          exact ihB hB
    exact main (admittedRun cfg [] times) (fun x pre post h => by
      simpa using key x pre post h)

/-- Concrete run of the amended limiter bound: with window 10 and max 1,
only one of the requests at times 0 and 10 falls in the half-open interval
`(0, 10]`. -/
theorem rate_limiter_sliding_window_witness :
    ((admittedRun ⟨10, 1⟩ [] [0, 10]).filter
        (fun s => decide (0 < s) && decide (s ≤ 0 + 10))).length ≤ 1 :=
  (rate_limiter_sliding_window ⟨10, 1⟩ [0, 10] (by decide)).2 0

/-! ## Client reconnection (technical reference, `reconnect`)

`reconnect(attempt)` stops with a terminal event once `attempt` has
reached `maxReconnectAttempts`; otherwise it waits
`min(reconnectDelay * 1.5 ^ attempt, 60000)` ms, tries `connect()`, and on
success resets the attempt counter to `0` and emits `reconnected`, on
failure recurses with `attempt + 1`.  `Math.pow(1.5, attempt)` and the
multiplication are exact in binary floating point for all practically
reachable attempt counts, so the delay is modelled as the exact rational
`reconnectDelay * (3 / 2) ^ attempt`. -/

/-- Default `maxReconnectAttempts` of the client options. -/
def defaultMaxReconnectAttempts : Nat := 10

/-- Default initial `reconnectDelay` (ms) of the client options. -/
def defaultReconnectDelay : ℚ := 1000

/-- The backoff delay before reconnect attempt `attempt`:
`reconnectDelay * 1.5 ^ attempt`, capped at 60000 ms. -/
def backoffDelay (reconnectDelay : ℚ) (attempt : Nat) : ℚ :=
  min (reconnectDelay * (3 / 2) ^ attempt) 60000

/-- Locally observable client reconnection events. -/
inductive ClientEvent where
  | attemptScheduled (attempt : Nat) (delayMs : ℚ)
  | reconnected
  | maxReconnectAttemptsReached
deriving DecidableEq, Repr

/-- The `reconnect` loop, driven by an oracle listing the outcome of each
`connect()` call (`true` = success).  Returns the events in order together
with the final value of the attempt counter. -/
def reconnectRun (maxAttempts : Nat) (reconnectDelay : ℚ) :
    Nat → List Bool → List ClientEvent × Nat
  | attempt, [] =>
    if maxAttempts ≤ attempt then ([ClientEvent.maxReconnectAttemptsReached], attempt)
    else ([], attempt)
  | attempt, ok :: rest =>
    if maxAttempts ≤ attempt then ([ClientEvent.maxReconnectAttemptsReached], attempt)
    else
      let ev := ClientEvent.attemptScheduled attempt
        (backoffDelay reconnectDelay attempt)
      if ok then ([ev, ClientEvent.reconnected], 0)
      else
        let next := reconnectRun maxAttempts reconnectDelay (attempt + 1) rest
        (ev :: next.1, next.2)

theorem reconnectRun_all_fail (maxAttempts : Nat) (d : ℚ) :
    ∀ k a, a + k = maxAttempts → ∀ rest,
      reconnectRun maxAttempts d a (List.replicate k false ++ rest) =
        ((List.range' a k).map
            (fun n => ClientEvent.attemptScheduled n (backoffDelay d n)) ++
          [ClientEvent.maxReconnectAttemptsReached], maxAttempts) := by
  intro k
  induction k with
  | zero =>
    intro a ha rest
    subst ha
    cases rest <;> simp [reconnectRun]
  | succ k ih =>
    intro a ha rest
    have hlt : ¬ maxAttempts ≤ a := by omega
    have ihs := ih (a + 1) (by omega) rest
    simp only [List.replicate_succ, List.cons_append, reconnectRun, hlt,
      if_false, Bool.false_eq_true, List.append_eq]
    rw [ihs]
    simp [List.range'_succ]

theorem reconnectRun_success_at (maxAttempts : Nat) (d : ℚ) :
    ∀ k a, a + k < maxAttempts → ∀ rest,
      reconnectRun maxAttempts d a (List.replicate k false ++ true :: rest) =
        ((List.range' a (k + 1)).map
            (fun n => ClientEvent.attemptScheduled n (backoffDelay d n)) ++
          [ClientEvent.reconnected], 0) := by
  intro k
  induction k with
  | zero =>
    intro a ha rest
    have hlt : ¬ maxAttempts ≤ a := by omega
    simp [reconnectRun, hlt, List.range'_succ]
  | succ k ih =>
    intro a ha rest
    have hlt : ¬ maxAttempts ≤ a := by omega
    have ihs := ih (a + 1) (by omega) rest
    simp only [List.replicate_succ, List.cons_append, reconnectRun, hlt,
      if_false, Bool.false_eq_true, List.append_eq]
    rw [ihs]
    simp [List.range'_succ]

/-- C6: reconnect attempt `n` (0-indexed) is scheduled after a delay of
`reconnectDelay * 1.5 ^ n` ms capped at 60000 ms; after
`maxReconnectAttempts` (default 10) failed attempts the loop stops with
the terminal `max-reconnect-attempts-reached` event; a success at any
attempt `k < maxAttempts` resets the attempt counter to `0` and fires
`reconnected`. -/
theorem reconnect_policy (maxAttempts k : Nat) (d : ℚ) (rest : List Bool) :
    (∀ n, backoffDelay d n = min (d * (3 / 2) ^ n) 60000) ∧
    defaultMaxReconnectAttempts = 10 ∧
    (k < maxAttempts →
      reconnectRun maxAttempts d 0 (List.replicate k false ++ true :: rest) =
        ((List.range (k + 1)).map
            (fun n => ClientEvent.attemptScheduled n (backoffDelay d n)) ++
          [ClientEvent.reconnected], 0)) ∧
    reconnectRun maxAttempts d 0 (List.replicate maxAttempts false ++ rest) =
      ((List.range maxAttempts).map
          (fun n => ClientEvent.attemptScheduled n (backoffDelay d n)) ++
        [ClientEvent.maxReconnectAttemptsReached], maxAttempts) := by
  refine ⟨fun n => rfl, rfl, ?_, ?_⟩
  · intro hk
    rw [List.range_eq_range']
    exact reconnectRun_success_at maxAttempts d k 0 (by omega) rest
  · rw [List.range_eq_range']
    exact reconnectRun_all_fail maxAttempts d maxAttempts 0 (by omega) rest

/-- Concrete run with the defaults: two failures then a success schedule
attempts 0, 1, 2 with delays 1000, 1500, 2250 ms, fire `reconnected`, and
reset the counter to 0. -/
theorem reconnect_policy_witness :
    reconnectRun 10 1000 0 (List.replicate 2 false ++ true :: []) =
      ([ClientEvent.attemptScheduled 0 1000, ClientEvent.attemptScheduled 1 1500,
        ClientEvent.attemptScheduled 2 2250, ClientEvent.reconnected], 0) := by
  have h := (reconnect_policy 10 2 1000 []).2.2.1 (by norm_num)
  rw [h]
  norm_num [backoffDelay, List.range_succ]

/-! ## Offline message queue (technical reference, `MessageQueue`)

`enqueue` removes the oldest entry (`shift()`) when the queue already holds
`maxSize` entries, then pushes the message with its arrival timestamp;
`flush` repeatedly `shift()`s and sends, hence sends oldest-first.  The
documented queue limits give a default capacity of 1000 messages and a
maximum message age of 5 minutes. -/

/-- A queued message together with the timestamp recorded at enqueue. -/
structure QueueEntry where
  message : Nat
  timestamp : Nat
deriving DecidableEq, Repr

/-- Default `maxSize` of `MessageQueue`. -/
def defaultQueueMaxSize : Nat := 1000

/-- Modelled from the spec: the documented maximum message age
("Maximum message age: 5 minutes"); the enqueue/flush code itself does not
consult it. -/
def maxMessageAgeMs : Nat := 300000

/-- `MessageQueue.enqueue`: drop the oldest entry when the queue is full,
then append the message with the current timestamp. -/
def enqueue (maxSize : Nat) (q : List QueueEntry) (msg now : Nat) :
    List QueueEntry :=
  let q' := if maxSize ≤ q.length then q.tail else q
  q' ++ [⟨msg, now⟩]

/-- `MessageQueue.flush`: repeatedly `shift()` the head entry and send its
message, i.e. send the queued messages oldest-first. -/
def flush : List QueueEntry → List Nat
  | [] => []
  | e :: rest => e.message :: flush rest

/-- Client connection states. -/
inductive ClientState where
  | idle
  | connecting
  | opened
  | reconnecting
  | closed
deriving DecidableEq, Repr

/-- Modelled from the spec: while the client is not `Open`, `emit` appends
the frame to the offline queue instead of writing it to the transport.
Returns the new queue and the frames written to the wire. -/
def clientEmit (st : ClientState) (maxSize : Nat) (q : List QueueEntry)
    (msg now : Nat) : List QueueEntry × List Nat :=
  if st = ClientState.opened then (q, [msg])
  else (enqueue maxSize q msg now, [])

/-- Enqueue a list of (message, timestamp) pairs in order, starting from
the empty queue. -/
def enqueueAll (maxSize : Nat) (msgs : List (Nat × Nat)) : List QueueEntry :=
  msgs.foldl (fun q p => enqueue maxSize q p.1 p.2) []

theorem enqueueAll_eq_drop (maxSize : Nat) (hpos : 1 ≤ maxSize) :
    ∀ msgs : List (Nat × Nat),
      enqueueAll maxSize msgs =
        (msgs.map (fun p => QueueEntry.mk p.1 p.2)).drop (msgs.length - maxSize) := by
  intro msgs
  induction msgs using List.reverseRecOn with
  | nil => simp [enqueueAll]
  | append_singleton B x ih =>
    have hfold : enqueueAll maxSize (B ++ [x]) =
        enqueue maxSize (enqueueAll maxSize B) x.1 x.2 := by
      simp [enqueueAll]
    rw [hfold, ih]
    have hlen : ((B.map (fun p => QueueEntry.mk p.1 p.2)).drop
        (B.length - maxSize)).length = min maxSize B.length := by
      simp [List.length_drop]
      omega
    by_cases hfull : maxSize ≤ B.length
    · have hcond : maxSize ≤
          ((B.map (fun p => QueueEntry.mk p.1 p.2)).drop (B.length - maxSize)).length := by
        omega
      rw [enqueue, if_pos hcond]
      rw [List.tail_drop]
      simp only [List.map_append, List.length_append, List.map_cons,
        List.map_nil, List.length_singleton]
      rw [List.drop_append_of_le_length (by simp; omega)]
      simp
      congr 1
      omega
    · have hcond : ¬ maxSize ≤
          ((B.map (fun p => QueueEntry.mk p.1 p.2)).drop (B.length - maxSize)).length := by
        omega
      rw [enqueue, if_neg hcond]
      have h0 : B.length - maxSize = 0 := by omega
      have h0' : (B.length + 1) - maxSize = 0 := by omega
      simp [h0, h0']

theorem flush_map (q : List QueueEntry) : flush q = q.map QueueEntry.message := by
  induction q with
  | nil => rfl
  | cons e rest ih => simp [flush, ih]

/-- C7: while not `Open`, every emit is enqueued (nothing goes to the
wire); the queue defaults to capacity 1000 with a documented 5-minute
maximum entry age; enqueueing into a full queue discards the oldest entry;
the queue never exceeds its capacity; and flushing sends exactly the most
recent `maxSize` of the enqueued messages, strictly oldest-first. -/
theorem offline_queue_behavior (maxSize : Nat) (hpos : 1 ≤ maxSize) :
    defaultQueueMaxSize = 1000 ∧
    maxMessageAgeMs = 5 * 60 * 1000 ∧
    (∀ st q msg now, st ≠ ClientState.opened →
      clientEmit st maxSize q msg now = (enqueue maxSize q msg now, [])) ∧
    (∀ q msg now, q.length = maxSize →
      enqueue maxSize q msg now = q.tail ++ [⟨msg, now⟩]) ∧
    (∀ q msg now, q.length ≤ maxSize →
      (enqueue maxSize q msg now).length ≤ maxSize) ∧
    (∀ msgs : List (Nat × Nat),
      flush (enqueueAll maxSize msgs) =
        (msgs.map Prod.fst).drop (msgs.length - maxSize)) := by
  refine ⟨rfl, rfl, ?_, ?_, ?_, ?_⟩
  · intro st q msg now hst
    simp [clientEmit, hst]
  · intro q msg now hq
    simp [enqueue, hq]
  · intro q msg now hq
    rcases Nat.lt_or_ge q.length maxSize with h | h
    · simp only [enqueue, if_neg (Nat.not_le.2 h)]
      simp
      omega
    · have hfull : maxSize ≤ q.length := h
      simp only [enqueue, if_pos hfull]
      simp [List.length_tail]
      omega
  · intro msgs
    rw [enqueueAll_eq_drop maxSize hpos msgs, flush_map, List.map_drop,
      List.map_map]
    rfl

/-- Concrete run: capacity 2, three enqueues; the oldest message is
discarded and the flush sends the remaining two oldest-first. -/
theorem offline_queue_behavior_witness :
    flush (enqueueAll 2 [(10, 0), (20, 1), (30, 2)]) = [20, 30] := by
  have h := (offline_queue_behavior 2 (by norm_num)).2.2.2.2.2
    [(10, 0), (20, 1), (30, 2)]
  rw [h]
  rfl

/-! ## Connect-URL construction (SmartSocketClient.js, Fix #3)

The fixed client code builds the WebSocket URL by removing a trailing `/`
from the base URL and appending the namespace path, instead of the old
`?namespace=...` query parameter.  URLs are modelled as character lists. -/

/-- Default `enableNamespaces` of the client options. -/
def defaultEnableNamespaces : Bool := true

/-- The fixed connect-URL construction of `SmartSocketClient.js` (Fix #3):
when namespaces are enabled and the namespace is not the root `/`, drop a
trailing slash from the base URL and append the namespace path. -/
def connectUrl (enableNamespaces : Bool) (url nsp : List Char) : List Char :=
  if enableNamespaces ∧ nsp ≠ ['/'] then
    (if url.getLast? = some '/' then url.dropLast else url) ++ nsp
  else url

/-- The path join the spec describes: the base URL stripped of a trailing
slash, followed by the namespace path. -/
def specPathJoin (url nsp : List Char) : List Char :=
  (if url.getLast? = some '/' then url.dropLast else url) ++ nsp

/-- C8: with namespaces enabled (the default) and a non-root namespace
path, the effective WebSocket URL is the path join of the base URL
(trailing slash stripped) and the namespace path; no query parameter is
introduced, so a URL without `?` stays without `?`. -/
theorem connectUrl_is_path_join (url nsp : List Char) (hns : nsp ≠ ['/']) :
    connectUrl defaultEnableNamespaces url nsp = specPathJoin url nsp ∧
    ('?' ∉ url → '?' ∉ nsp → '?' ∉ connectUrl defaultEnableNamespaces url nsp) := by
  have hcond : defaultEnableNamespaces = true ∧ nsp ≠ ['/'] := ⟨rfl, hns⟩
  constructor
  · simp [connectUrl, specPathJoin, hns, defaultEnableNamespaces]
  · intro hu hn
    simp only [connectUrl, defaultEnableNamespaces, true_and, if_pos hns,
      List.mem_append]
    rintro (h | h)
    · by_cases hl : url.getLast? = some '/'
      · rw [if_pos hl] at h
        exact hu (List.dropLast_subset url h)
      · rw [if_neg hl] at h
        exact hu h
    · exact hn h

/-- Concrete run: base `ws://h:8080/` and namespace `/quiz` join to
`ws://h:8080/quiz`, with no query parameter. -/
theorem connectUrl_is_path_join_witness :
    connectUrl defaultEnableNamespaces ("ws://h:8080/".toList) ("/quiz".toList) =
      specPathJoin ("ws://h:8080/".toList) ("/quiz".toList) ∧
    '?' ∉ connectUrl defaultEnableNamespaces ("ws://h:8080/".toList) ("/quiz".toList) := by
  have h := connectUrl_is_path_join ("ws://h:8080/".toList) ("/quiz".toList)
    (by decide)
  exact ⟨h.1, h.2 (by decide) (by decide)⟩

/-! ## Acknowledgment correlator

Modelled from the spec: the correlator implementation
(`smartsocket-client`'s outstanding-ack table) is not among the repository
sources.  Per the spec, emitting with a callback inserts
`id -> {callback, timer}` into the table; a matching ACK frame or the
timer firing removes the entry and invokes the callback exactly once.  The
timeout payload is the one the repository's timeout-flow documentation
shows: `callback({ error: 'Acknowledgment timeout', code: 'ERR_ACK_001' })`. -/

/-- Payload handed to an acknowledgment callback on the error path. -/
structure AckPayload where
  error : String
  code : String
deriving DecidableEq, Repr

/-- The timeout payload as the repository documents it. -/
def ackTimeoutPayload : AckPayload :=
  ⟨"Acknowledgment timeout", "ERR_ACK_001"⟩

/-- The timeout payload as the claim words it. -/
def claimedTimeoutPayload : AckPayload :=
  ⟨"ack_timeout", "ERR_ACK_001"⟩

/-- Modelled from the spec: firing of the ack timer for `id` — remove the
entry (freeing the id) and invoke its callback with the timeout payload.
The table maps ack ids to callback tokens; the second component lists the
callback invocations (token, payload) the step performs. -/
def onAckTimeout (table : List (Nat × Nat)) (id : Nat) :
    List (Nat × Nat) × List (Nat × AckPayload) :=
  match table.lookup id with
  | some cb => (table.filter (fun e => e.1 != id), [(cb, ackTimeoutPayload)])
  | none => (table, [])

/-- Modelled from the spec: arrival of an ACK frame for `id` — cancel the
timer, remove the entry and invoke the callback with the decoded payload;
an unknown id invokes nothing. -/
def onAckFrame (table : List (Nat × Nat)) (id : Nat) (payload : AckPayload) :
    List (Nat × Nat) × List (Nat × AckPayload) :=
  match table.lookup id with
  | some cb => (table.filter (fun e => e.1 != id), [(cb, payload)])
  | none => (table, [])

theorem lookup_filter_ne (table : List (Nat × Nat)) (id : Nat) :
    (table.filter (fun e => e.1 != id)).lookup id = none := by
  induction table with
  | nil => rfl
  | cons e rest ih =>
    obtain ⟨k, v⟩ := e
    by_cases h : k = id
    · simp [List.filter_cons, h, ih]
    · rw [List.filter_cons_of_pos (by simp [h])]
      have hbeq : (id == k) = false := by simp [Ne.symm h]
      simp [List.lookup, hbeq, ih]

/-- C4 counterexample: when the ack timer for id 5 fires, the callback is
invoked with `{error: "Acknowledgment timeout", code: "ERR_ACK_001"}` —
not with the `{error: "ack_timeout", ...}` payload the claim states. -/
theorem ack_timeout_payload_counterexample :
    onAckTimeout [(5, 7)] 5 = ([], [(7, ackTimeoutPayload)]) ∧
    ackTimeoutPayload ≠ claimedTimeoutPayload := by
  constructor
  · rfl
  · decide

/-- C4 (amended): when the ack timer fires for an outstanding id, the
correlator removes the entry — freeing the id, so that a late ACK for it
invokes nothing — and invokes the callback exactly once, with the payload
`{error: "Acknowledgment timeout", code: "ERR_ACK_001"}`. -/
theorem ack_timeout_frees_id_and_invokes_once
    (table : List (Nat × Nat)) (id cb : Nat)
    (houtstanding : table.lookup id = some cb) :
    (onAckTimeout table id).2 = [(cb, ackTimeoutPayload)] ∧
    ((onAckTimeout table id).1).lookup id = none ∧
    (∀ p, (onAckFrame (onAckTimeout table id).1 id p).2 = []) := by
  refine ⟨?_, ?_, ?_⟩
  · simp [onAckTimeout, houtstanding]
  · simp only [onAckTimeout, houtstanding]
    exact lookup_filter_ne table id
  · intro p
    simp only [onAckTimeout, houtstanding]
    simp [onAckFrame, lookup_filter_ne table id]

/-- Concrete run: id 5 outstanding with callback token 7; the timer fire
invokes the callback once with the timeout payload, and a late ACK for id
5 afterwards invokes nothing. -/
theorem ack_timeout_frees_id_and_invokes_once_witness :
    (onAckTimeout [(5, 7)] 5).2 = [(7, ackTimeoutPayload)] ∧
    ((onAckTimeout [(5, 7)] 5).1).lookup 5 = none ∧
    (onAckFrame (onAckTimeout [(5, 7)] 5).1 5 ⟨"ok", "OK"⟩).2 = [] := by
  have h := ack_timeout_frees_id_and_invokes_once [(5, 7)] 5 7 rfl
  exact ⟨h.1, h.2.1, h.2.2 ⟨"ok", "OK"⟩⟩

/-! ## Binary codec

Modelled from the spec: the codec implementation of `smartsocket/index.js`
is not among the repository sources; the wire layout below follows the
Binary Protocol section of the technical reference and the codec contract
of the spec:
`[ver:1][type:1][flags:1][ns_len:2 BE][ns][evt_len:2 BE][evt]`
`[ack_id:4 BE]? [payload_len:4 BE][payload]`, with flags bit 7 =
compressed, bit 6 = encrypted, bit 5 = ack-requested, bit 4 = binary
payload, and the ack id present iff the ack flag is set or the type is
ACK (4).  The payload is DEFLATE-compressed when longer than the
compression threshold and then encrypted when encryption is enabled
(compression before encryption); DEFLATE and AES-256-CBC are abstracted
as the configured byte transforms, assumed inverse in the round-trip
theorem. -/

/-- Big-endian 2-byte encoding of a 16-bit length. -/
def be2 (n : Nat) : List Nat := [n / 256 % 256, n % 256]

/-- Big-endian 4-byte encoding of a 32-bit value, as its two 16-bit
halves. -/
def be4 (n : Nat) : List Nat := be2 (n / 65536) ++ be2 (n % 65536)

/-- Read a big-endian 2-byte value off the stream. -/
def read2 : List Nat → Option (Nat × List Nat)
  | a :: b :: rest => some (a * 256 + b, rest)
  | _ => none

/-- Read a big-endian 4-byte value off the stream. -/
def read4 : List Nat → Option (Nat × List Nat)
  | a :: b :: c :: d :: rest =>
    some (((a * 256 + b) * 256 + c) * 256 + d, rest)
  | _ => none

/-- Read exactly `k` bytes off the stream. -/
def readN (k : Nat) (l : List Nat) : Option (List Nat × List Nat) :=
  if k ≤ l.length then some (l.take k, l.drop k) else none

/-- A frame prior to encoding: message type byte, namespace and event as
UTF-8 bytes, optional ack id, payload bytes (serialised JSON, or raw when
`binary`), and the binary-payload flag. -/
structure Frame where
  type : Nat
  nsp : List Nat
  event : List Nat
  ackId : Option Nat
  payload : List Nat
  binary : Bool
deriving DecidableEq, Repr

/-- Codec configuration: the compression threshold, whether encryption is
enabled, and the byte transforms for DEFLATE and AES-256-CBC with their
inverses (abstracted). -/
structure CodecCfg where
  compressionThreshold : Nat
  encryptionEnabled : Bool
  compress : List Nat → List Nat
  decompress : List Nat → List Nat
  encrypt : List Nat → List Nat
  decrypt : List Nat → List Nat

/-- The payload as written to the wire: compressed when its length
exceeds the threshold, then encrypted when encryption is enabled —
compression strictly before encryption. -/
def wirePayload (cfg : CodecCfg) (f : Frame) : List Nat :=
  let p1 := if cfg.compressionThreshold < f.payload.length
    then cfg.compress f.payload else f.payload
  if cfg.encryptionEnabled then cfg.encrypt p1 else p1

/-- The flags byte: bit 7 compressed, bit 6 encrypted, bit 5
ack-requested, bit 4 binary payload, bits 0 to 3 zero. -/
def flagsByte (compressed encrypted ackReq binary : Bool) : Nat :=
  (if compressed then 128 else 0) + (if encrypted then 64 else 0) +
    (if ackReq then 32 else 0) + (if binary then 16 else 0)

/-- Encode a frame to wire bytes. -/
def encode (cfg : CodecCfg) (f : Frame) : List Nat :=
  let p2 := wirePayload cfg f
  let flags := flagsByte (decide (cfg.compressionThreshold < f.payload.length))
    cfg.encryptionEnabled f.ackId.isSome f.binary
  1 :: f.type :: flags ::
    (be2 f.nsp.length ++ f.nsp ++ be2 f.event.length ++ f.event ++
      (match f.ackId with
       | some i => be4 i
       | none => []) ++
      be4 p2.length ++ p2)

/-- Decode wire bytes back to a frame: check `ver = 1`, parse the header,
extract the ack id only when the flags (or the ACK type) mandate it, then
reverse encryption and then compression according to the flag bits. -/
def decode (cfg : CodecCfg) (bytes : List Nat) : Option Frame :=
  match bytes with
  | ver :: ty :: flags :: rest =>
    if ver = 1 then
      (read2 rest).bind fun pn =>
      (readN pn.1 pn.2).bind fun pns =>
      (read2 pns.2).bind fun pe =>
      (readN pe.1 pe.2).bind fun pev =>
      (if flags.testBit 5 || ty == 4 then
          (read4 pev.2).map (fun q => (some q.1, q.2))
        else some ((none : Option Nat), pev.2)).bind fun pack =>
      (read4 pack.2).bind fun plen =>
      (readN plen.1 plen.2).bind fun pp =>
      if pp.2 = [] then
        let p1 := if flags.testBit 6 then cfg.decrypt pp.1 else pp.1
        let p0 := if flags.testBit 7 then cfg.decompress p1 else p1
        some ⟨ty, pns.1, pev.1, pack.1, p0, flags.testBit 4⟩
      else none
    else none
  | _ => none

/-- Well-formedness of a frame for the wire format: a valid type byte,
namespace and event lengths that fit 16 bits, a 32-bit ack id, an ack id
present on ACK frames, and a payload within the 16 MiB size cap. -/
def Frame.WellFormed (f : Frame) : Prop :=
  1 ≤ f.type ∧ f.type ≤ 7 ∧ f.nsp.length < 65536 ∧ f.event.length < 65536 ∧
    (∀ i ∈ f.ackId, i < 4294967296) ∧ (f.type = 4 → f.ackId.isSome) ∧
    f.payload.length ≤ 16777216

theorem read2_be2 (n : Nat) (h : n < 65536) (r : List Nat) :
    read2 (be2 n ++ r) = some (n, r) := by
  have harith : n / 256 % 256 * 256 + n % 256 = n := by omega
  simp [be2, read2, harith]

theorem read4_be4 (n : Nat) (h : n < 4294967296) (r : List Nat) :
    read4 (be4 n ++ r) = some (n, r) := by
  have harith : ((n / 65536 / 256 % 256 * 256 + n / 65536 % 256) * 256 +
      n % 65536 / 256 % 256) * 256 + n % 65536 % 256 = n := by omega
  simp [be4, be2, read4, harith]

theorem readN_append (l r : List Nat) : readN l.length (l ++ r) = some (l, r) := by
  simp [readN, List.take_left, List.drop_left]

theorem readN_self (l : List Nat) : readN l.length l = some (l, []) := by
  have h := readN_append l []
  simpa using h

theorem flagsByte_bit7 (c e a b : Bool) : (flagsByte c e a b).testBit 7 = c := by
  cases c <;> cases e <;> cases a <;> cases b <;> decide

theorem flagsByte_bit6 (c e a b : Bool) : (flagsByte c e a b).testBit 6 = e := by
  cases c <;> cases e <;> cases a <;> cases b <;> decide

theorem flagsByte_bit5 (c e a b : Bool) : (flagsByte c e a b).testBit 5 = a := by
  cases c <;> cases e <;> cases a <;> cases b <;> decide

theorem flagsByte_bit4 (c e a b : Bool) : (flagsByte c e a b).testBit 4 = b := by
  cases c <;> cases e <;> cases a <;> cases b <;> decide

/-- C2: decoding the encoding of any well-formed frame — any type,
namespace, event, optional ack id and capped payload, under every
combination of the compression and encryption flags — returns the
original frame, provided the configured decompress/decrypt transforms
invert the compress/encrypt transforms and the wire payload length fits
the 4-byte length field. -/
theorem decode_encode (cfg : CodecCfg) (f : Frame)
    (hwf : f.WellFormed)
    (hcomp : ∀ p, cfg.decompress (cfg.compress p) = p)
    (hcrypt : ∀ p, cfg.decrypt (cfg.encrypt p) = p)
    (hlen : (wirePayload cfg f).length < 4294967296) :
    decode cfg (encode cfg f) = some f := by
  obtain ⟨ty, nsp, ev, ackId, pl, bin⟩ := f
  obtain ⟨hty1, hty7, hns, hev, hack, hack4, hcap⟩ := hwf
  by_cases hc : cfg.compressionThreshold < pl.length <;>
  cases hE : cfg.encryptionEnabled <;>
  cases ackId with
  | none =>
    have hty4 : ty ≠ 4 := fun h => by simpa using hack4 h
    have hbeq : (ty == 4) = false := beq_eq_false_iff_ne.2 hty4
    simp only [wirePayload] at hlen
    simp only [hc, hE, if_true, if_false, Bool.false_eq_true, if_neg, reduceIte] at hlen
    simp [encode, decode, wirePayload, hc, hE, hbeq,
      read2_be2 _ hns, read2_be2 _ hev, readN_append, readN_self,
      read4_be4 _ hlen, flagsByte_bit7, flagsByte_bit6, flagsByte_bit5,
      flagsByte_bit4, hcomp, hcrypt]
  | some i =>
    have hai : i < 4294967296 := hack i (by simp)
    simp only [wirePayload] at hlen
    simp only [hc, hE, if_true, if_false, Bool.false_eq_true, if_neg, reduceIte] at hlen
    simp [encode, decode, wirePayload, hc, hE,
      read2_be2 _ hns, read2_be2 _ hev, readN_append, readN_self,
      read4_be4 _ hai, read4_be4 _ hlen, flagsByte_bit7, flagsByte_bit6,
      flagsByte_bit5, flagsByte_bit4, hcomp, hcrypt]

/-- A concrete codec with a small threshold, encryption on, and
reversible stand-in transforms: compression reverses the payload,
encryption increments every byte. -/
def roundTripCfg : CodecCfg :=
  ⟨1, true, List.reverse, List.reverse,
    fun p => p.map (fun x => x + 1), fun p => p.map (fun x => x - 1)⟩

/-- A concrete well-formed EVENT frame with an ack id and a payload long
enough to cross the compression threshold. -/
def roundTripFrame : Frame :=
  ⟨3, [47, 99], [101], some 7, [1, 2, 3], false⟩

/-- Concrete round trip with both the compression and the encryption flag
set: the frame encodes and decodes back to itself. -/
theorem decode_encode_witness :
    decode roundTripCfg (encode roundTripCfg roundTripFrame) =
      some roundTripFrame := by
  apply decode_encode roundTripCfg roundTripFrame
  · refine ⟨?_, ?_, ?_, ?_, ?_, ?_, ?_⟩ <;> simp [roundTripFrame]
  · intro p
    simp [roundTripCfg]
  · intro p
    simp [roundTripCfg, Function.comp_def, Nat.add_sub_cancel]
  · decide

end SmartSocket
